import Mathlib

/-!
# Verification of the flux refinement checker core

A shallow embedding of the core data structures and algorithms of the flux
refinement type checker (crates `flux-fixpoint`, `flux-refineck`,
`flux-desugar`), together with theorems checking the natural-language
specification against the code.

The embedding follows the Rust source:
* `crates/flux-fixpoint/src/constraint.rs` — the Horn constraint language,
  `is_concrete`, and the table of default qualifiers;
* `crates/flux-refineck/src/fixpoint_encoding.rs` — sort/expression/kvar
  encoding into the fixpoint constraint language and solver-result
  interpretation;
* `crates/flux-refineck/src/checker.rs` — terminator checking, assert
  checking, and the two-mode work-queue loop;
* `crates/flux-desugar/src/desugar/gather.rs` — parameter gathering.

Rust `Vec`/slices become `List`, `Option` stays `Option`, fallible or
panicking code returns `Option`/explicit outcome types, and machine indices
(`KVid`, `LocalVar`, names) become `Nat`.
-/

/-! ## The fixpoint constraint language (`flux-fixpoint/src/constraint.rs`) -/

/-- `BinOp` from `constraint.rs`. -/
inductive FBinOp where
  | iff | imp | or | and | eq | ne | gt | ge | lt | le | add | sub | mul | div | mod
  deriving DecidableEq, Repr

/-- `UnOp` from `constraint.rs`. -/
inductive FUnOp where
  | not | neg
  deriving DecidableEq, Repr

/-- `Constant` from `constraint.rs`; `BigInt` is embedded as `Int`
(arbitrary-precision in the source) and `Real(i128)` keeps its integer
payload. -/
inductive FConstant where
  | int (n : Int)
  | real (r : Int)
  | bool (b : Bool)
  deriving DecidableEq, Repr

/-- `SortCtor` from `constraint.rs` (the `User` variant is commented out in
the source). -/
inductive FSortCtor where
  | set | map
  deriving DecidableEq, Repr

/-- `Sort` from `constraint.rs`.  `Func(PolyFuncSort { params, fsort:
FuncSort { inputs_and_output } })` is inlined as the `func` constructor
carrying the two fields. -/
inductive FSort where
  | int | bool | real | unit
  | bitvec (w : Nat)
  | pair (s₁ s₂ : FSort)
  | func (params : Nat) (inputsAndOutput : List FSort)
  | app (ctor : FSortCtor) (args : List FSort)

/-- `Func<T>` from `constraint.rs`: a variable or an interpreted (theory)
function symbol. -/
inductive FFunc (V : Type) where
  | var (v : V)
  | itf (sym : String)
  deriving DecidableEq, Repr

/-- `Expr<T>` from `constraint.rs`, parameterized by the variable type `V`
(`T::Var`). -/
inductive FExpr (V : Type) where
  | var (v : V)
  | constant (c : FConstant)
  | binaryOp (op : FBinOp) (e₁ e₂ : FExpr V)
  | app (f : FFunc V) (args : List (FExpr V))
  | unaryOp (op : FUnOp) (e : FExpr V)
  | pair (e₁ e₂ : FExpr V)
  | proj (e : FExpr V) (fst : Bool)
  | ifThenElse (p e₁ e₂ : FExpr V)
  | unit

/-- `Pred<T>` from `constraint.rs`, parameterized by variable type `V` and
kvar-name type `K`. -/
inductive FPred (V K : Type) where
  | and (ps : List (FPred V K))
  | kvar (k : K) (args : List V)
  | expr (e : FExpr V)

/-- `Constraint<T>` from `constraint.rs`, parameterized by variable type
`V`, kvar type `K` and tag type `T`. -/
inductive FConstraint (V K T : Type) where
  | pred (p : FPred V K) (tag : Option T)
  | conj (cs : List (FConstraint V K T))
  | guard (p : FPred V K) (c : FConstraint V K T)
  | forallC (v : V) (s : FSort) (p : FPred V K) (c : FConstraint V K T)

/-- `Qualifier<T>` from `constraint.rs`. -/
structure FQualifier (V : Type) where
  name : String
  args : List (V × FSort)
  body : FExpr V
  global : Bool

/-- `Expr::ZERO`. -/
def FExpr.zero {V : Type} : FExpr V := .constant (.int 0)

/-- `Expr::ONE`. -/
def FExpr.one {V : Type} : FExpr V := .constant (.int 1)

/-- `Expr::eq` from `constraint.rs`. -/
def FExpr.eqE {V : Type} (e₁ e₂ : FExpr V) : FExpr V := .binaryOp .eq e₁ e₂

/-! ### The default qualifier table (`DEFAULT_QUALIFIERS`)

The table is built over `StringTypes` (`T::Var = &'static str`), so the
variable type is `String`. -/

/-- The `EqZero` qualifier from `DEFAULT_QUALIFIERS`. -/
def eqzeroQual : FQualifier String :=
  { args := [("v", .int)]
    body := .binaryOp .eq (.var "v") FExpr.zero
    name := "EqZero"
    global := true }

/-- The `GtZero` qualifier. -/
def gtzeroQual : FQualifier String :=
  { args := [("v", .int)]
    body := .binaryOp .gt (.var "v") FExpr.zero
    name := "GtZero"
    global := true }

/-- The `GeZero` qualifier. -/
def gezeroQual : FQualifier String :=
  { args := [("v", .int)]
    body := .binaryOp .ge (.var "v") FExpr.zero
    name := "GeZero"
    global := true }

/-- The `LtZero` qualifier. -/
def ltzeroQual : FQualifier String :=
  { args := [("v", .int)]
    body := .binaryOp .lt (.var "v") FExpr.zero
    name := "LtZero"
    global := true }

/-- The `LeZero` qualifier. -/
def lezeroQual : FQualifier String :=
  { args := [("v", .int)]
    body := .binaryOp .le (.var "v") FExpr.zero
    name := "LeZero"
    global := true }

/-- The `Eq` qualifier. -/
def eqQual : FQualifier String :=
  { args := [("a", .int), ("b", .int)]
    body := .binaryOp .eq (.var "a") (.var "b")
    name := "Eq"
    global := true }

/-- The `Gt` qualifier. -/
def gtQual : FQualifier String :=
  { args := [("a", .int), ("b", .int)]
    body := .binaryOp .gt (.var "a") (.var "b")
    name := "Gt"
    global := true }

/-- The qualifier held by the Rust binding `ge` (named `Ge`, body `a >= b`). -/
def geQual : FQualifier String :=
  { args := [("a", .int), ("b", .int)]
    body := .binaryOp .ge (.var "a") (.var "b")
    name := "Ge"
    global := true }

/-- The qualifier held by the Rust binding `lt` (named `Lt`, body `a < b`). -/
def ltQual : FQualifier String :=
  { args := [("a", .int), ("b", .int)]
    body := .binaryOp .lt (.var "a") (.var "b")
    name := "Lt"
    global := true }

/-- The `Le` qualifier. -/
def leQual : FQualifier String :=
  { args := [("a", .int), ("b", .int)]
    body := .binaryOp .le (.var "a") (.var "b")
    name := "Le"
    global := true }

/-- The `Le1` qualifier: body `a <= b - 1`. -/
def le1Qual : FQualifier String :=
  { args := [("a", .int), ("b", .int)]
    body := .binaryOp .le (.var "a") (.binaryOp .sub (.var "b") FExpr.one)
    name := "Le1"
    global := true }

/-- `DEFAULT_QUALIFIERS` from `constraint.rs`: the final
`vec![eqzero, gtzero, gezero, ltzero, lezero, eq, gt, ge, lt, le, le1]`. -/
def DEFAULT_QUALIFIERS : List (FQualifier String) :=
  [eqzeroQual, gtzeroQual, gezeroQual, ltzeroQual, lezeroQual,
   eqQual, gtQual, geQual, ltQual, leQual, le1Qual]

/-! ### A semantics for qualifier bodies

To check the qualifier table against the spec we evaluate `Expr` bodies
under an integer valuation.  Only the fragment used by the default
qualifiers needs to evaluate; everything else returns `none`. -/

/-- Evaluate an `FExpr` over `String` variables under an integer valuation.
Integer constants and the comparison / arithmetic operators used by the
default qualifiers are interpreted; all other constructs are `none`. -/
def fexprEval (σ : String → Int) : FExpr String → Option FConstant
  | .var v => some (.int (σ v))
  | .constant c => some c
  | .binaryOp op e₁ e₂ => do
      let c₁ ← fexprEval σ e₁
      let c₂ ← fexprEval σ e₂
      match c₁, c₂ with
      | .int n₁, .int n₂ =>
          match op with
          | .eq => some (.bool (n₁ = n₂))
          | .ne => some (.bool (n₁ ≠ n₂))
          | .gt => some (.bool (n₂ < n₁))
          | .ge => some (.bool (n₂ ≤ n₁))
          | .lt => some (.bool (n₁ < n₂))
          | .le => some (.bool (n₁ ≤ n₂))
          | .add => some (.int (n₁ + n₂))
          | .sub => some (.int (n₁ - n₂))
          | .mul => some (.int (n₁ * n₂))
          | _ => none
      | _, _ => none
  | _ => none

/-- All argument sorts of a qualifier are `int`. -/
def FQualifier.intSorted (q : FQualifier String) : Prop :=
  ∀ p ∈ q.args, p.2 = FSort.int

/-- **C7.** The set of default qualifiers, all emitted as global, is exactly
the eleven qualifiers `EqZero(v)=(v=0)`, `GtZero(v)=(v>0)`, `GeZero(v)=(v≥0)`,
`LtZero(v)=(v<0)`, `LeZero(v)=(v≤0)`, `Eq(a,b)=(a=b)`, `Gt(a,b)=(a>b)`,
`Ge(a,b)=(a≥b)`, `Lt(a,b)=(a<b)`, `Le(a,b)=(a≤b)`, and `Le1(a,b)=(a≤b−1)`,
each over int-sorted arguments.  The bodies are checked semantically: under
every valuation each body evaluates to the boolean stated by the claim. -/
theorem default_qualifiers_exactly_eleven :
    DEFAULT_QUALIFIERS.map FQualifier.name =
      ["EqZero", "GtZero", "GeZero", "LtZero", "LeZero",
       "Eq", "Gt", "Ge", "Lt", "Le", "Le1"] ∧
    (∀ q ∈ DEFAULT_QUALIFIERS, q.global = true ∧ q.intSorted) ∧
    (∀ σ : String → Int,
      fexprEval σ eqzeroQual.body = some (.bool (σ "v" = 0)) ∧
      fexprEval σ gtzeroQual.body = some (.bool (0 < σ "v")) ∧
      fexprEval σ gezeroQual.body = some (.bool (0 ≤ σ "v")) ∧
      fexprEval σ ltzeroQual.body = some (.bool (σ "v" < 0)) ∧
      fexprEval σ lezeroQual.body = some (.bool (σ "v" ≤ 0)) ∧
      fexprEval σ eqQual.body = some (.bool (σ "a" = σ "b")) ∧
      fexprEval σ gtQual.body = some (.bool (σ "b" < σ "a")) ∧
      fexprEval σ geQual.body = some (.bool (σ "b" ≤ σ "a")) ∧
      fexprEval σ ltQual.body = some (.bool (σ "a" < σ "b")) ∧
      fexprEval σ leQual.body = some (.bool (σ "a" ≤ σ "b")) ∧
      fexprEval σ le1Qual.body = some (.bool (σ "a" ≤ σ "b" - 1))) ∧
    (∀ q ∈ DEFAULT_QUALIFIERS,
      (q.args.length = 1 ∧ q.args.map Prod.fst = ["v"]) ∨
      (q.args.length = 2 ∧ q.args.map Prod.fst = ["a", "b"])) := by
  refine ⟨rfl, ?_, ?_, ?_⟩
  · intro q hq
    fin_cases hq <;>
      exact ⟨rfl, by intro p hp; fin_cases hp <;> rfl⟩
  · intro σ
    refine ⟨rfl, rfl, rfl, rfl, rfl, rfl, rfl, rfl, rfl, rfl, rfl⟩
  · intro q hq
    fin_cases hq <;> simp [eqzeroQual, gtzeroQual, gezeroQual, ltzeroQual,
      lezeroQual, eqQual, gtQual, geQual, ltQual, leQual, le1Qual]

/-! ## `is_concrete` and trivial-constraint skipping

`Pred::is_trivially_true`, `Pred::is_concrete` and `Constraint::is_concrete`
from `constraint.rs`.  The `iter().any(..)` calls are unfolded into mutual
list helpers for structural recursion. -/

/-- `Pred::is_trivially_true` from `constraint.rs`. -/
def FPred.is_trivially_true {V K : Type} : FPred V K → Bool
  | .expr (.constant (.bool true)) => true
  | .and ps => ps.isEmpty
  | _ => false

mutual

/-- `Pred::is_concrete` from `constraint.rs`: `And` is concrete when some
conjunct is, kvars are not concrete, expressions are. -/
def FPred.is_concrete {V K : Type} : FPred V K → Bool
  | .and ps => FPred.anyConcrete ps
  | .kvar _ _ => false
  | .expr _ => true

/-- `ps.iter().any(Pred::is_concrete)` unfolded. -/
def FPred.anyConcrete {V K : Type} : List (FPred V K) → Bool
  | [] => false
  | p :: ps => p.is_concrete || FPred.anyConcrete ps

end

mutual

/-- `Constraint::is_concrete` from `constraint.rs`. -/
def FConstraint.is_concrete {V K T : Type} : FConstraint V K T → Bool
  | .conj cs => FConstraint.anyConcreteC cs
  | .guard _ c => c.is_concrete
  | .forallC _ _ _ c => c.is_concrete
  | .pred p _ => p.is_concrete && !p.is_trivially_true

/-- `cs.iter().any(Constraint::is_concrete)` unfolded. -/
def FConstraint.anyConcreteC {V K T : Type} : List (FConstraint V K T) → Bool
  | [] => false
  | c :: cs => c.is_concrete || FConstraint.anyConcreteC cs

end

mutual

/-- Claim-side: a predicate built solely from kvars and conjunctions, with
no `Expr` leaf ("is a kvar" in the claim's words, allowing the conjunctions
of sub-kvars the encoder itself produces). -/
def FPred.kvarOnly {V K : Type} : FPred V K → Bool
  | .and ps => FPred.allKvarOnly ps
  | .kvar _ _ => true
  | .expr _ => false

/-- All predicates in the list are kvar-only. -/
def FPred.allKvarOnly {V K : Type} : List (FPred V K) → Bool
  | [] => true
  | p :: ps => p.kvarOnly && FPred.allKvarOnly ps

end

mutual

/-- Claim-side: the head predicates (the `Pred` of every `Constraint::Pred`
node) of a constraint. -/
def FConstraint.heads {V K T : Type} : FConstraint V K T → List (FPred V K)
  | .pred p _ => [p]
  | .conj cs => FConstraint.headsList cs
  | .guard _ c => c.heads
  | .forallC _ _ _ c => c.heads

/-- Heads of a list of constraints, concatenated. -/
def FConstraint.headsList {V K T : Type} : List (FConstraint V K T) → List (FPred V K)
  | [] => []
  | c :: cs => c.heads ++ FConstraint.headsList cs

end

theorem FConstraint.mem_headsList {V K T : Type} (p : FPred V K)
    (cs : List (FConstraint V K T)) :
    p ∈ FConstraint.headsList cs ↔ ∃ d ∈ cs, p ∈ d.heads := by
  induction cs with
  | nil => simp [FConstraint.headsList]
  | cons d ds ih => simp [FConstraint.headsList, ih]

/-- Claim-side: a head predicate that is "either a kvar or trivially true
(the literal `true` or an empty conjunction)". -/
def headTrivialSpec {V K : Type} (p : FPred V K) : Prop :=
  p.kvarOnly = true ∨ p = .expr (.constant (.bool true)) ∨ p = .and []

theorem FPred.anyConcrete_eq_any {V K : Type} (ps : List (FPred V K)) :
    FPred.anyConcrete ps = ps.any FPred.is_concrete := by
  induction ps with
  | nil => rfl
  | cons p ps ih => simp [FPred.anyConcrete, ih]

theorem FPred.allKvarOnly_eq_all {V K : Type} (ps : List (FPred V K)) :
    FPred.allKvarOnly ps = ps.all FPred.kvarOnly := by
  induction ps with
  | nil => rfl
  | cons p ps ih => simp [FPred.allKvarOnly, ih]

theorem FConstraint.anyConcreteC_eq_any {V K T : Type} (cs : List (FConstraint V K T)) :
    FConstraint.anyConcreteC cs = cs.any FConstraint.is_concrete := by
  induction cs with
  | nil => rfl
  | cons c cs ih => simp [FConstraint.anyConcreteC, ih]

/-- A predicate is non-concrete exactly when it is built from kvars and
conjunctions only. -/
theorem FPred.not_concrete_iff_kvarOnly {V K : Type} (p : FPred V K) :
    p.is_concrete = false ↔ p.kvarOnly = true := by
  suffices h : ∀ n (p : FPred V K), sizeOf p ≤ n →
      (p.is_concrete = false ↔ p.kvarOnly = true) from h (sizeOf p) p le_rfl
  intro n
  induction n with
  | zero =>
    intro p hp
    cases p <;> simp_arith at hp
  | succ n ih =>
    intro p hp
    cases p with
    | and ps =>
      have hps : ∀ q ∈ ps, sizeOf q ≤ n := by
        intro q hq
        have h1 := List.sizeOf_lt_of_mem hq
        have h2 : sizeOf (FPred.and ps) = 1 + sizeOf ps := by simp
        omega
      simp only [FPred.is_concrete, FPred.kvarOnly, FPred.anyConcrete_eq_any,
        FPred.allKvarOnly_eq_all, List.any_eq_false, List.all_eq_true]
      constructor
      · intro h q hq
        exact ((ih q (hps q hq)).mp (by simpa using h q hq))
      · intro h q hq
        simp [(ih q (hps q hq)).mpr (h q hq)]
    | kvar k args => simp [FPred.is_concrete, FPred.kvarOnly]
    | expr e => simp [FPred.is_concrete, FPred.kvarOnly]

/-- `is_trivially_true` holds exactly on the literal `true` and the empty
conjunction. -/
theorem FPred.is_trivially_true_iff {V K : Type} (p : FPred V K) :
    p.is_trivially_true = true ↔
      (p = .expr (.constant (.bool true)) ∨ p = .and []) := by
  cases p with
  | and ps => cases ps <;> simp [FPred.is_trivially_true]
  | kvar k args => simp [FPred.is_trivially_true]
  | expr e =>
    cases e with
    | constant c =>
      cases c with
      | bool b => cases b <;> simp [FPred.is_trivially_true]
      | int n => simp [FPred.is_trivially_true]
      | real r => simp [FPred.is_trivially_true]
    | var v => simp [FPred.is_trivially_true]
    | binaryOp op e₁ e₂ => simp [FPred.is_trivially_true]
    | app f args => simp [FPred.is_trivially_true]
    | unaryOp op e => simp [FPred.is_trivially_true]
    | pair e₁ e₂ => simp [FPred.is_trivially_true]
    | proj e fst => simp [FPred.is_trivially_true]
    | ifThenElse p e₁ e₂ => simp [FPred.is_trivially_true]
    | unit => simp [FPred.is_trivially_true]

/-- A constraint is non-concrete exactly when all of its heads are
kvar-only or trivially true. -/
theorem FConstraint.not_concrete_iff_heads {V K T : Type} (c : FConstraint V K T) :
    c.is_concrete = false ↔ ∀ p ∈ c.heads, headTrivialSpec p := by
  suffices h : ∀ n (c : FConstraint V K T), sizeOf c ≤ n →
      (c.is_concrete = false ↔ ∀ p ∈ c.heads, headTrivialSpec p) from
    h (sizeOf c) c le_rfl
  intro n
  induction n with
  | zero =>
    intro c hc
    cases c <;> simp_arith at hc
  | succ n ih =>
    intro c hc
    cases c with
    | pred p tag =>
      simp only [FConstraint.is_concrete, FConstraint.heads, List.mem_singleton,
        forall_eq, headTrivialSpec, Bool.and_eq_false_iff, Bool.not_eq_false]
      rw [← FPred.not_concrete_iff_kvarOnly, ← FPred.is_trivially_true_iff]
      constructor
      · rintro (h | h)
        · exact Or.inl h
        · right
          simpa using h
      · rintro (h | h)
        · exact Or.inl h
        · right
          simpa using h
    | conj cs =>
      have hcs : ∀ d ∈ cs, sizeOf d ≤ n := by
        intro d hd
        have h1 := List.sizeOf_lt_of_mem hd
        have h2 : sizeOf (FConstraint.conj cs) = 1 + sizeOf cs := by simp
        omega
      simp only [FConstraint.is_concrete, FConstraint.anyConcreteC_eq_any,
        List.any_eq_false, FConstraint.heads]
      constructor
      · intro h p hp
        obtain ⟨d, hd, hpd⟩ := (FConstraint.mem_headsList p cs).mp hp
        exact ((ih d (hcs d hd)).mp (by simpa using h d hd)) p hpd
      · intro h d hd
        simp only [Bool.not_eq_true]
        exact (ih d (hcs d hd)).mpr
          (fun p hp => h p ((FConstraint.mem_headsList p cs).mpr ⟨d, hd, hp⟩))
    | guard p c' =>
      have hc' : sizeOf c' ≤ n := by
        have : sizeOf (FConstraint.guard p c') = 1 + sizeOf p + sizeOf c' := by simp
        have hp : 0 < sizeOf p := by cases p <;> simp_arith
        omega
      simpa [FConstraint.is_concrete, FConstraint.heads] using ih c' hc'
    | forallC v s p c' =>
      have hc' : sizeOf c' ≤ n := by
        have : sizeOf (FConstraint.forallC v s p c') =
            1 + sizeOf v + sizeOf s + sizeOf p + sizeOf c' := by simp
        have hp : 0 < sizeOf p := by cases p <;> simp_arith
        omega
      simpa [FConstraint.is_concrete, FConstraint.heads] using ih c' hc'

/-! ## Solver-result interpretation (`FixpointCtxt::check`)

`FixpointResult` is declared in the `flux-fixpoint` crate outside the
provided sources; its three constructors `Safe`, `Unsafe(_, errors)` and
`Crash` are taken from their use in `FixpointCtxt::check`
(`fixpoint_encoding.rs`).  Each error's `tag` field is a `TagIdx`,
embedded as `Nat`; stats and crash payloads are dropped as irrelevant. -/

/-- The solver's result: `Safe`, `Unsafe` (here `notSafe`, carrying the
error tags) or `Crash`. -/
inductive FixpointResult where
  | safe
  | notSafe (errorTags : List Nat)
  | crash

/-- Outcome of `FixpointCtxt::check`'s result interpretation: a returned
tag list, or an internal-compiler-error panic (`span_bug!`). -/
inductive SolverOutcome (T : Type) where
  | ok (tags : List T)
  | bug
  deriving DecidableEq

/-- `Itertools::unique`: remove duplicates keeping the first occurrence of
each element. -/
def uniqueFirst {α : Type} [DecidableEq α] : List α → List α
  | [] => []
  | x :: xs => x :: uniqueFirst (xs.filter (fun y => y ≠ x))
termination_by l => l.length
decreasing_by
  simp only [List.length_cons]
  exact Nat.lt_succ_of_le (List.length_filter_le _ _)

/-- The result-interpretation `match` at the end of `FixpointCtxt::check`:
`Ok(Safe(_))` yields no tags; `Ok(Unsafe(_, errors))` maps each error's tag
through the `tags` table and deduplicates with `unique()`; `Ok(Crash(_))`
and `Err(_)` are `span_bug!` panics.  `tags` models the `IndexVec` lookup
`self.tags[err.tag]`. -/
def interpFixpointResult {T : Type} [DecidableEq T] (tags : Nat → T) :
    Except Unit FixpointResult → SolverOutcome T
  | .ok .safe => .ok []
  | .ok (.notSafe errors) => .ok (uniqueFirst (errors.map tags))
  | .ok .crash => .bug
  | .error _ => .bug

/-- The gate at the top of `FixpointCtxt::check`: a non-concrete constraint
returns `Ok(vec![])` without running the solver; otherwise the solver runs
and its result is interpreted.  The second component records whether the
solver was invoked. -/
def fixpointCtxtCheck {V K W : Type} [DecidableEq W] (tags : Nat → W)
    (runSolver : Except Unit FixpointResult) (c : FConstraint V K Nat) :
    SolverOutcome W × Bool :=
  if c.is_concrete then (interpFixpointResult tags runSolver, true)
  else (.ok [], false)

theorem uniqueFirst_mem {α : Type} [DecidableEq α] (l : List α) (x : α) :
    x ∈ uniqueFirst l ↔ x ∈ l := by
  induction l using uniqueFirst.induct with
  | case1 => simp [uniqueFirst]
  | case2 y ys ih =>
    rw [uniqueFirst]
    by_cases hxy : x = y
    · subst hxy; simp
    · simp only [List.mem_cons, ih, List.mem_filter, decide_eq_true_eq]
      constructor
      · rintro (h | ⟨h, _⟩)
        · exact Or.inl h
        · exact Or.inr h
      · rintro (h | h)
        · exact Or.inl h
        · exact Or.inr ⟨h, by simpa using hxy⟩

theorem uniqueFirst_nodup {α : Type} [DecidableEq α] (l : List α) :
    (uniqueFirst l).Nodup := by
  induction l using uniqueFirst.induct with
  | case1 => simp [uniqueFirst]
  | case2 y ys ih =>
    rw [uniqueFirst]
    refine List.nodup_cons.mpr ⟨?_, ih⟩
    rw [uniqueFirst_mem]
    simp

/-- **C8.** Interpreting the solver's result: a Safe result yields an empty
tag list; an Unsafe(errors) result yields the tags of the errors with
duplicates removed (keeping first occurrences); a Crash result, or a
failure to run the solver at all, is a hard internal bug (panic) rather
than a returned value. -/
theorem solver_result_interpretation {T : Type} [DecidableEq T] (tags : Nat → T) :
    interpFixpointResult tags (.ok .safe) = .ok [] ∧
    (∀ errors : List Nat,
      interpFixpointResult tags (.ok (.notSafe errors)) =
        .ok (uniqueFirst (errors.map tags)) ∧
      (uniqueFirst (errors.map tags)).Nodup ∧
      (∀ t, t ∈ uniqueFirst (errors.map tags) ↔ t ∈ errors.map tags)) ∧
    interpFixpointResult tags (.ok .crash) = .bug ∧
    (∀ e : Unit, interpFixpointResult tags (.error e) = .bug) := by
  refine ⟨rfl, ?_, rfl, fun _ => rfl⟩
  intro errors
  exact ⟨rfl, uniqueFirst_nodup _, fun t => uniqueFirst_mem _ t⟩

/-- **C9.** If the encoded constraint is not concrete — every head
predicate is either a kvar (possibly a conjunction of kvars) or trivially
true (the literal `true` or an empty conjunction) — then
`FixpointCtxt::check` returns an empty tag list without invoking the
external solver; conversely a constraint with at least one concrete,
non-trivially-true head is submitted to the solver. -/
theorem check_skips_trivial_constraints {V K W : Type} [DecidableEq W] :
    (∀ c : FConstraint V K Nat,
      c.is_concrete = false ↔ ∀ p ∈ c.heads, headTrivialSpec p) ∧
    (∀ (tags : Nat → W) runSolver (c : FConstraint V K Nat),
      (∀ p ∈ c.heads, headTrivialSpec p) →
        fixpointCtxtCheck tags runSolver c = (.ok [], false)) ∧
    (∀ (tags : Nat → W) runSolver (c : FConstraint V K Nat),
      ¬ (∀ p ∈ c.heads, headTrivialSpec p) →
        (fixpointCtxtCheck tags runSolver c).2 = true) := by
  refine ⟨fun c => FConstraint.not_concrete_iff_heads c, ?_, ?_⟩
  · intro tags runSolver c hc
    have : c.is_concrete = false := (FConstraint.not_concrete_iff_heads c).mpr hc
    simp [fixpointCtxtCheck, this]
  · intro tags runSolver c hc
    have : c.is_concrete = true := by
      rcases Bool.eq_false_or_eq_true c.is_concrete with h | h
      · exact h
      · exact absurd ((FConstraint.not_concrete_iff_heads c).mp h) hc
    simp [fixpointCtxtCheck, this]

/-- **C9 witness.** The equivalence and both gate directions evaluated at a
concrete constraint with one concrete head `5 = 5` (not trivially true) and
at a concrete kvar-only constraint. -/
theorem check_skips_trivial_constraints_witness :
    (fixpointCtxtCheck (V := Nat) (K := Nat) (W := Nat) (fun n => n)
        (.ok .safe)
        (.forallC 0 .int (.kvar 0 [0])
          (.pred (.and [.kvar 1 [0], .kvar 2 []]) none)) = (.ok [], false)) ∧
    (fixpointCtxtCheck (V := Nat) (K := Nat) (W := Nat) (fun n => n)
        (.ok .safe)
        (.pred (.expr (.binaryOp .eq (.constant (.int 5)) (.constant (.int 5)))) none)).2
      = true := by
  constructor
  · exact (check_skips_trivial_constraints (V := Nat) (K := Nat) (W := Nat)).2.1
      (fun n => n) (.ok .safe) _
      (by
        intro p hp
        simp only [FConstraint.heads, List.mem_singleton] at hp
        subst hp
        left
        simp [FPred.kvarOnly, FPred.allKvarOnly])
  · exact (check_skips_trivial_constraints (V := Nat) (K := Nat) (W := Nat)).2.2
      (fun n => n) (.ok .safe) _
      (by
        intro h
        have := h (.expr (.binaryOp .eq (.constant (.int 5)) (.constant (.int 5))))
          (by simp [FConstraint.heads])
        rcases this with h1 | h2 | h3
        · simp [FPred.kvarOnly] at h1
        · simp at h2
        · simp at h3)

/-! ## Sort and tuple-expression encoding (`fixpoint_encoding.rs`)

`rty::Sort` is declared in `flux-middle` outside the provided sources; its
constructors are taken from the exhaustive `match` in `sort_to_fixpoint`.
`rty::PolyFuncSort` is inlined as binder count, input sorts and output
sort (`params()`, `skip_binders().inputs()`, `skip_binders().output()`). -/

/-- `rty::SortCtor`: `Set`, `Map`, or a user-declared opaque sort
constructor (whose name is irrelevant to the encoding). -/
inductive RSortCtor where
  | set | map | user
  deriving DecidableEq

/-- `rty::Sort`, as matched exhaustively by `sort_to_fixpoint`. -/
inductive RSort where
  | int | real | bool | loc
  | bitvec (w : Nat)
  | app (ctor : RSortCtor) (args : List RSort)
  | tuple (sorts : List RSort)
  | func (params : Nat) (inputs : List RSort) (output : RSort)
  | var (k : Nat)
  | param (p : Nat)

/-- The body of the `rty::Sort::Tuple` arm of `sort_to_fixpoint`, applied to
the already-encoded component sorts: the empty tuple is `Unit`, a 1-tuple is
`unreachable!` (`none`), and otherwise the slice pattern `[sorts @ .., s1, s2]`
splits off the *last two* components, pairs them, and then folds the leading
components in order with `|s1, s2| Pair(Box::new(s1), s2)` — accumulator on
the left. -/
def tupleSortAux : List FSort → Option FSort := fun l =>
  match l.reverse with
  | [] => some .unit
  | [_] => none
  | s₂ :: s₁ :: leadRev =>
      some (leadRev.reverse.foldl (fun acc s => .pair acc s) (.pair s₁ s₂))

mutual

/-- `sort_to_fixpoint` from `fixpoint_encoding.rs`.  Panics (`bug!` on
`Loc`/`Var`, `unreachable!` on 1-tuples and on `User` inside the second
`App` arm) become `none`.  In the source the `Tuple` arm encodes the last
two components before the leading ones; with `Option` the resulting value
is the same as encoding all components first. -/
def sort_to_fixpoint : RSort → Option FSort
  | .int => some .int
  | .real => some .real
  | .bool => some .bool
  | .bitvec w => some (.bitvec w)
  | .app .user _ => some .int
  | .param _ => some .int
  | .app .set sorts => do
      let ss ← sortsToFixpoint sorts
      some (.app .set ss)
  | .app .map sorts => do
      let ss ← sortsToFixpoint sorts
      some (.app .map ss)
  | .tuple sorts => do
      let encs ← sortsToFixpoint sorts
      tupleSortAux encs
  | .func params inputs output => do
      let ins ← sortsToFixpoint inputs
      let out ← sort_to_fixpoint output
      some (.func params (ins ++ [out]))
  | .loc => none
  | .var _ => none

/-- `sorts.iter().map(sort_to_fixpoint)` with panic propagation. -/
def sortsToFixpoint : List RSort → Option (List FSort)
  | [] => some []
  | s :: rest => do
      let f ← sort_to_fixpoint s
      let fs ← sortsToFixpoint rest
      some (f :: fs)

end

/-- `ExprCtxt::tuple_to_fixpoint` from `fixpoint_encoding.rs`, with the
element encoder `self.expr_to_fixpoint` abstracted as `enc`: the empty
tuple is `Unit`, and `[e, exprs @ ..]` becomes
`Pair(expr_to_fixpoint(e), tuple_to_fixpoint(exprs))`. -/
def tuple_to_fixpoint {α V : Type} (enc : α → FExpr V) : List α → FExpr V
  | [] => .unit
  | e :: exprs => .pair (enc e) (tuple_to_fixpoint enc exprs)

/-- Claim-side: the right-nested chain of `Pair` sorts over a list of
component sorts, with the empty tuple encoding as `Unit` (the shape the
claim asserts for `sort_to_fixpoint`). -/
def rightNestedPairChain : List FSort → FSort
  | [] => .unit
  | [s] => s
  | s :: rest => .pair s (rightNestedPairChain rest)

/-- Claim-side: the right-nested `Unit`-terminated chain of `Pair`
expressions over a list of element expressions (the shape
`tuple_to_fixpoint` actually produces). -/
def rightNestedUnitChain {V : Type} : List (FExpr V) → FExpr V
  | [] => .unit
  | e :: rest => .pair e (rightNestedUnitChain rest)

/-- The `Pair`/`Unit` tree shape of a sort or expression, used to compare
the two tuple encodings. -/
inductive PairShape where
  | leaf
  | unitS
  | node (l r : PairShape)

/-- Shape of a fixpoint sort. -/
def FSort.shape : FSort → PairShape
  | .pair s₁ s₂ => .node s₁.shape s₂.shape
  | .unit => .unitS
  | _ => .leaf

/-- Shape of a fixpoint expression. -/
def FExpr.shape {V : Type} : FExpr V → PairShape
  | .pair e₁ e₂ => .node e₁.shape e₂.shape
  | .unit => .unitS
  | _ => .leaf

/-- **C1 counterexample.** The claim says `sort_to_fixpoint` produces a
right-nested chain of `Pair`s and that `tuple_to_fixpoint` produces exactly
that shape.  On the concrete 3-tuple sort `(int, bool, real)` the code
yields the left-nested `Pair(Pair(bool, real), int)`, which differs from
the right-nested `Pair(int, Pair(bool, real))`; and on a concrete 2-tuple
the expression encoding `Pair(e₀, Pair(e₁, Unit))` does not have the shape
of the sort encoding `Pair(int, int)`. -/
theorem tuple_encoding_counterexample :
    sort_to_fixpoint (.tuple [.int, .bool, .real]) =
      some (.pair (.pair .bool .real) .int) ∧
    FSort.pair (.pair .bool .real) .int ≠
      rightNestedPairChain [FSort.int, FSort.bool, FSort.real] ∧
    sort_to_fixpoint (.tuple [.int, .int]) = some (.pair .int .int) ∧
    (tuple_to_fixpoint (fun v : Nat => FExpr.var (V := Nat) v) [0, 1]).shape ≠
      (FSort.pair .int .int).shape := by
  refine ⟨?_, ?_, ?_, ?_⟩
  · simp [sort_to_fixpoint, sortsToFixpoint, tupleSortAux]
  · simp [rightNestedPairChain]
  · simp [sort_to_fixpoint, sortsToFixpoint, tupleSortAux]
  · simp [tuple_to_fixpoint, FExpr.shape, FSort.shape]

theorem sortsToFixpoint_append (xs ys : List RSort) :
    sortsToFixpoint (xs ++ ys) =
      (do
        let fx ← sortsToFixpoint xs
        let fy ← sortsToFixpoint ys
        pure (fx ++ fy)) := by
  induction xs with
  | nil => simp [sortsToFixpoint]
  | cons x xs ih =>
    simp only [List.cons_append, sortsToFixpoint]
    cases hx : sort_to_fixpoint x with
    | none => simp
    | some f =>
      cases hxs : sortsToFixpoint xs with
      | none =>
        have h2 : sortsToFixpoint (xs ++ ys) = none := by
          rw [ih, hxs]; rfl
        simp [h2, hxs]
      | some fxs =>
        cases hys : sortsToFixpoint ys with
        | none =>
          have h2 : sortsToFixpoint (xs ++ ys) = none := by
            rw [ih, hxs]
            simp [hys]
          simp [h2, hxs, hys]
        | some fys =>
          have h2 : sortsToFixpoint (xs ++ ys) = some (fxs ++ fys) := by
            rw [ih, hxs]
            simp [hys]
          simp [h2, hxs, hys]

/-- **C1 (amended).** `sort_to_fixpoint` encodes the empty tuple sort as
`Unit`; a tuple of `n ≥ 2` component sorts is encoded by pairing the
encodings of the *last two* components and then folding the leading
components over it in left-to-right order with the accumulator on the left
(a left-nested chain `Pair(…Pair(Pair(s_{n−2}, s_{n−1}), s_0)…, s_{n−3})`),
and a 1-tuple panics.  `tuple_to_fixpoint` encodes a tuple expression as
the right-nested `Unit`-terminated chain
`Pair(e_0, Pair(e_1, …, Pair(e_{n−1}, Unit)…))`.  The two encodings have
the same `Pair`/`Unit` shape for the empty tuple (both `Unit`). -/
theorem tuple_encoding_shapes :
    sort_to_fixpoint (.tuple []) = some .unit ∧
    (∀ (lead : List RSort) (s₁ s₂ : RSort) (fl : List FSort) (f₁ f₂ : FSort),
      sortsToFixpoint lead = some fl →
      sort_to_fixpoint s₁ = some f₁ →
      sort_to_fixpoint s₂ = some f₂ →
      sort_to_fixpoint (.tuple (lead ++ [s₁, s₂])) =
        some (fl.foldl (fun acc s => .pair acc s) (.pair f₁ f₂))) ∧
    (∀ s : RSort, sort_to_fixpoint (.tuple [s]) = none) ∧
    (∀ (α V : Type) (enc : α → FExpr V) (exprs : List α),
      tuple_to_fixpoint enc exprs = rightNestedUnitChain (exprs.map enc)) ∧
    (rightNestedUnitChain (V := Nat) []).shape = FSort.unit.shape := by
  refine ⟨?_, ?_, ?_, ?_, ?_⟩
  · simp [sort_to_fixpoint, sortsToFixpoint, tupleSortAux]
  · intro lead s₁ s₂ fl f₁ f₂ hlead h₁ h₂
    have happ : sortsToFixpoint (lead ++ [s₁, s₂]) = some (fl ++ [f₁, f₂]) := by
      rw [sortsToFixpoint_append, hlead]
      simp [sortsToFixpoint, h₁, h₂]
    simp only [sort_to_fixpoint, happ, Option.bind_eq_bind, Option.some_bind]
    simp [tupleSortAux, List.reverse_append]
  · intro s
    cases h : sort_to_fixpoint s with
    | none => simp [sort_to_fixpoint, sortsToFixpoint, h]
    | some f => simp [sort_to_fixpoint, sortsToFixpoint, h, tupleSortAux]
  · intro α V enc exprs
    induction exprs with
    | nil => simp [tuple_to_fixpoint, rightNestedUnitChain]
    | cons e es ih => simp [tuple_to_fixpoint, rightNestedUnitChain, ih]
  · rfl

/-- **C1 witness.** The amended theorem applied at the concrete tuple sort
`(int, bool, real)` (decomposed as lead `[int]` plus last two `bool`,
`real`) and at the 1-tuple `(bool,)`. -/
theorem tuple_encoding_shapes_witness :
    sort_to_fixpoint (.tuple [.int, .bool, .real]) =
      some (([FSort.int]).foldl (fun acc s => .pair acc s)
        (.pair .bool .real)) ∧
    sort_to_fixpoint (.tuple [.bool]) = none := by
  constructor
  · exact tuple_encoding_shapes.2.1 [.int] .bool .real [.int] .bool .real
      (by simp [sortsToFixpoint, sort_to_fixpoint])
      (by simp [sort_to_fixpoint]) (by simp [sort_to_fixpoint])
  · exact tuple_encoding_shapes.2.2.1 .bool

/-! ## Terminator checking (`checker.rs`)

`rty::Expr`, `mir::BinOp`, `mir::AssertKind` and `mir::TerminatorKind` are
declared outside the provided sources (`flux-middle` and the `rustc`
lowering); their constructors are taken from their exhaustive uses in
`Checker::check_terminator` and `Checker::check_assert`.  The effectful
subcomputations of `check_terminator` (operand checking, `check_ret`,
`check_call`, …) are abstracted into a `TermEffects` record supplying
their outcomes; the control structure of the `match` is embedded
faithfully. -/

/-- A minimal `rty::Expr` fragment: enough to carry assert predicates and
kvar arguments.  `var` is a free variable (`Var::Free`); `boundVar` stands
for the other `rty::Var` kinds (`LateBound`, `EarlyBound`, `EVar`), which
`imm` treats as a `span_bug!`. -/
inductive RtyExpr where
  | var (name : Nat)
  | boundVar (debruijn : Nat) (idx : Nat)
  | constant (c : FConstant)
  | binaryOp (op : FBinOp) (e₁ e₂ : RtyExpr)
  | unaryOp (op : FUnOp) (e : RtyExpr)
  | tuple (es : List RtyExpr)

/-- `rty::Expr::not` (declared in `flux-middle`): logical negation, i.e.
`UnaryOp(Not, e)`. -/
def RtyExpr.not (e : RtyExpr) : RtyExpr := .unaryOp .not e

/-- `mir::BinOp` (rustc): the binary operators, as referenced by
`AssertKind::Overflow`. -/
inductive MirBinOp where
  | add | sub | mul | div | rem
  | bitXor | bitAnd | bitOr | shl | shr
  | eq | lt | le | ne | ge | gt
  deriving DecidableEq

/-- `mir::AssertKind`, as matched in `Checker::check_assert`. -/
inductive AssertKind where
  | divisionByZero
  | remainderByZero
  | boundsCheck
  | overflow (op : MirBinOp)
  deriving DecidableEq

/-- `Guard` from `checker.rs`: extra control information for a successor
block.  Places and variant indices are embedded as `Nat` ids. -/
inductive GuardC where
  | none
  | pred (e : RtyExpr)
  | matchG (place : Nat) (variant : Nat)

/-- The `msg` match in `Checker::check_assert`: the human-readable message
for the kinds that emit a head obligation, `none` for
`Overflow(op)` with `op ∉ {Div, Rem}` (the early-return arm). -/
def assertKindMsg : AssertKind → Option String
  | .divisionByZero => some "possible division by zero"
  | .boundsCheck => some "possible out-of-bounds access"
  | .remainderByZero => some "possible remainder with a divisor of zero"
  | .overflow .div => some "possible division with overflow"
  | .overflow .rem => some "possible reminder with overflow"
  | .overflow _ => none

/-- `Checker::check_assert` from the point after the condition operand has
been checked and its boolean index `idx` extracted: compute the truth
predicate (`idx` or `!idx`), then either early-return with only the guard
(`Overflow` of a non-`Div`/`Rem` operator) or emit the head obligation
`check_pred(pred, Assert(msg))` and return the guard.  The first component
is the emitted obligation (predicate and message), the second the returned
`Guard`. -/
def check_assert (expected : Bool) (idx : RtyExpr) (msg : AssertKind) :
    Option (RtyExpr × String) × GuardC :=
  let pred := if expected then idx else idx.not
  match assertKindMsg msg with
  | .none => (none, .pred pred)
  | .some m => (some (pred, m), .pred pred)

/-- `mir::TerminatorKind`, as matched exhaustively in
`Checker::check_terminator`.  Basic blocks are `Nat`; payloads not
affecting control structure are dropped. -/
inductive TerminatorK where
  | ret
  | unreachable
  | coroutineDrop
  | goto (target : Nat)
  | yieldT (resume : Nat) (resumeArg : Nat)
  | switchInt
  | call (target : Option Nat)
  | assert (target : Nat) (expected : Bool) (msg : AssertKind)
  | dropT (target : Nat)
  | falseEdge (realTarget : Nat)
  | falseUnwind (realTarget : Nat)
  | unwindResume

/-- Outcome of `check_terminator`: successors with guards (`Ok`), a
`CheckerError` (`Err`), or a panic (`todo!`, `bug!`, `tracked_span_bug!`). -/
inductive TerminatorOutcome where
  | ok (succs : List (Nat × GuardC))
  | err
  | panic

/-- Oracle for the effectful subcomputations of `check_terminator`. -/
structure TermEffects where
  /-- `check_ret` plus closure-obligation checking succeed (Return arm). -/
  retOk : Bool
  /-- `self.resume_ty` is `Some` (Yield arm; `bug!` otherwise). -/
  yieldResumeTy : Bool
  /-- `check_assign_ty` of the resume type succeeds (Yield arm). -/
  yieldAssignOk : Bool
  /-- Operand check plus `check_if`/`check_match` successors
  (SwitchInt arm); `none` is a `CheckerError`. -/
  switchSuccs : Option (List (Nat × GuardC))
  /-- Signature queries, `check_call` and destination assignment succeed
  (Call arm). -/
  callOk : Bool
  /-- `check_operand` on the assert condition succeeds (Assert arm). -/
  assertOperandOk : Bool
  /-- The condition's type is `Indexed(Bool, idx)` with this index
  (Assert arm); `none` is the `tracked_span_bug!`. -/
  assertIdx : Option RtyExpr

/-- The successor computation of `Checker::check_terminator`
(`checker.rs`), with effectful subcomputations supplied by `eff`.  The
`UnwindResume` arm is the source's `todo!("implement checking of cleanup
code")`. -/
def check_terminator (eff : TermEffects) : TerminatorK → TerminatorOutcome
  | .ret => if eff.retOk then .ok [] else .err
  | .unreachable => .ok []
  | .coroutineDrop => .ok []
  | .goto target => .ok [(target, .none)]
  | .yieldT resume _ =>
      if eff.yieldResumeTy then
        if eff.yieldAssignOk then .ok [(resume, .none)] else .err
      else .panic
  | .switchInt =>
      match eff.switchSuccs with
      | .none => .err
      | .some succs => .ok succs
  | .call target =>
      if eff.callOk then
        match target with
        | .some t => .ok [(t, .none)]
        | .none => .ok []
      else .err
  | .assert target expected msg =>
      if eff.assertOperandOk then
        match eff.assertIdx with
        | .none => .panic
        | .some idx => .ok [(target, (check_assert expected idx msg).2)]
      else .err
  | .dropT target => .ok [(target, .none)]
  | .falseEdge realTarget => .ok [(realTarget, .none)]
  | .falseUnwind realTarget => .ok [(realTarget, .none)]
  | .unwindResume => .panic

/-- A concrete `TermEffects` instance (all subcomputations succeed). -/
def trivialTermEffects : TermEffects :=
  { retOk := true
    yieldResumeTy := true
    yieldAssignOk := true
    switchSuccs := some []
    callOk := true
    assertOperandOk := true
    assertIdx := some (.var 0) }

/-- **C2 counterexample.** The claim says `check_terminator` succeeds with
an empty successor list on `UnwindResume`, `CoroutineDrop` and
`Unreachable`; but the `UnwindResume` arm is `todo!(..)`, a panic, even
when every subcomputation succeeds. -/
theorem unwind_resume_counterexample :
    check_terminator trivialTermEffects .unwindResume = .panic ∧
    check_terminator trivialTermEffects .unwindResume ≠ .ok [] := by
  constructor
  · rfl
  · intro h
    simp [check_terminator] at h

/-- **C2 (amended).** For `CoroutineDrop` and `Unreachable` terminators,
`check_terminator` succeeds and returns an empty list of successors (no
successor blocks and no guards); for `UnwindResume` it panics
(`todo!`, unimplemented cleanup checking). -/
theorem no_successor_terminators (eff : TermEffects) :
    check_terminator eff .unreachable = .ok [] ∧
    check_terminator eff .coroutineDrop = .ok [] ∧
    check_terminator eff .unwindResume = .panic :=
  ⟨rfl, rfl, rfl⟩

/-- **C4.** `check_assert` computes the truth predicate `p` (the
condition's index if `expected`, its negation otherwise); if the kind is
`Overflow(op)` with `op ∉ {Div, Rem}`, no head obligation is emitted and
`p` is recorded only as the successor's guard; for every other kind
(`DivisionByZero`, `BoundsCheck`, `RemainderByZero`, `Overflow(Div)`,
`Overflow(Rem)`) the head obligation `check_pred(p, Assert(msg))` is
emitted and `p` is also the successor's guard. -/
theorem check_assert_spec (expected : Bool) (idx : RtyExpr) (msg : AssertKind) :
    (check_assert expected idx msg).2 =
      .pred (if expected then idx else idx.not) ∧
    ((∃ op, msg = .overflow op ∧ op ≠ .div ∧ op ≠ .rem) →
      (check_assert expected idx msg).1 = none) ∧
    ((∀ op, msg = .overflow op → op = .div ∨ op = .rem) →
      ∃ s, (check_assert expected idx msg).1 =
        some (if expected then idx else idx.not, s)) := by
  refine ⟨?_, ?_, ?_⟩
  · cases msg with
    | divisionByZero => rfl
    | remainderByZero => rfl
    | boundsCheck => rfl
    | overflow op => cases op <;> rfl
  · rintro ⟨op, rfl, hdiv, hrem⟩
    cases op <;> first
      | rfl
      | exact absurd rfl hdiv
      | exact absurd rfl hrem
  · intro hov
    cases msg with
    | divisionByZero => exact ⟨_, rfl⟩
    | remainderByZero => exact ⟨_, rfl⟩
    | boundsCheck => exact ⟨_, rfl⟩
    | overflow op =>
      rcases hov op rfl with rfl | rfl
      · exact ⟨_, rfl⟩
      · exact ⟨_, rfl⟩

/-- **C4 witness.** The assert semantics at concrete inputs: an
`Overflow(Add)` assert emits nothing, a `DivisionByZero` assert emits the
obligation; both record the truth predicate as the guard. -/
theorem check_assert_spec_witness :
    (check_assert true (.var 0) (.overflow .add)).1 = none ∧
    (check_assert false (.var 0) .divisionByZero).2 =
      .pred (RtyExpr.var 0).not ∧
    (∃ s, (check_assert false (.var 0) .divisionByZero).1 =
      some ((RtyExpr.var 0).not, s)) := by
  refine ⟨?_, ?_, ?_⟩
  · exact (check_assert_spec true (.var 0) (.overflow .add)).2.1
      ⟨.add, rfl, by simp, by simp⟩
  · exact (check_assert_spec false (.var 0) .divisionByZero).1
  · exact (check_assert_spec false (.var 0) .divisionByZero).2.2
      (by intro op h; cases h)

/-! ## KVar encoding (`fixpoint_encoding.rs`)

`FixpointCtxt::kvar_to_fixpoint` and `FixpointCtxt::populate_kvid_map`.
The parts of the `FixpointCtxt` state they touch are the `kvid_map`, the
`fixpoint_kvars` vector and the fresh-name generator of `Env`; the
expression encoder `expr_to_fixpoint` used inside `imm` is abstracted as a
total function `encE`, and the free-variable map of `Env` as
`env : Nat → Option Nat` (`None` is the `span_bug!` on a missing entry). -/

/-- `KVarEncoding` from `fixpoint_encoding.rs`. -/
inductive KVarEncoding where
  | single | conj
  deriving DecidableEq

/-- `KVarDecl` from `fixpoint_encoding.rs`. -/
structure KVarDecl where
  self_args : Nat
  sorts : List RSort
  encoding : KVarEncoding

/-- `rty::KVar` (declared in `flux-middle`; fields from use): the kvar id
and its argument expressions, self args followed by the captured scope. -/
structure RtyKVar where
  kvid : Nat
  args : List RtyExpr

/-- `FixpointKVar` from `fixpoint_encoding.rs`. -/
structure FixpointKVar where
  sorts : List FSort
  orig : Nat

/-- One entry of `Bindings`: a fresh local, its sort, and its defining
equality. -/
abbrev Binding := Nat × FSort × FExpr Nat

/-- The state of `FixpointCtxt` touched by kvar encoding: `kvid_map`
(assoc list), `fixpoint_kvars` (list indexed by fixpoint `KVid`) and the
fresh `LocalVar` counter. -/
structure KvCtxt where
  kvidMap : List (Nat × List Nat)
  fixpointKVars : List FixpointKVar
  nextLocal : Nat

/-- `self.kvid_map[&kvid]` lookup (`UnordMap`; first matching entry). -/
def lookupKvid (m : List (Nat × List Nat)) (k : Nat) : Option (List Nat) :=
  (m.find? (fun p => p.1 = k)).map Prod.snd

/-- `FixpointCtxt::populate_kvid_map` from `fixpoint_encoding.rs`:
`entry(kvid).or_insert_with(..)`.  On a fresh kvid, encode the declared
sorts; with no arguments allocate a single sub-kvar over `[Unit]`; under
`Single` a single sub-kvar over all sorts; under `Conj`,
`n = max(self_args, 1)` sub-kvars where the `i`-th allocated sub-kvar is
declared over `all_args.skip(n - i - 1)`.  Freshly pushed fixpoint kvar
ids are consecutive positions of `fixpoint_kvars`. -/
def populate_kvid_map (decl : KVarDecl) (kvid : Nat) (st : KvCtxt) : Option KvCtxt :=
  match lookupKvid st.kvidMap kvid with
  | some _ => some st
  | none => do
      let all_args ← sortsToFixpoint decl.sorts
      if all_args.isEmpty then
        some { st with
          kvidMap := (kvid, [st.fixpointKVars.length]) :: st.kvidMap
          fixpointKVars := st.fixpointKVars ++ [⟨[.unit], kvid⟩] }
      else
        match decl.encoding with
        | .single =>
            some { st with
              kvidMap := (kvid, [st.fixpointKVars.length]) :: st.kvidMap
              fixpointKVars := st.fixpointKVars ++ [⟨all_args, kvid⟩] }
        | .conj =>
            let n := max decl.self_args 1
            some { st with
              kvidMap := (kvid,
                (List.range n).map (st.fixpointKVars.length + ·)) :: st.kvidMap
              fixpointKVars := st.fixpointKVars ++
                (List.range n).map
                  (fun i => ⟨all_args.drop (n - i - 1), kvid⟩) }

/-- `FixpointCtxt::imm` from `fixpoint_encoding.rs`: a free variable maps
through the env (`span_bug!` if absent, and on any other `Var` kind);
any other expression gets a fresh local bound to it by an equality pushed
onto `bindings`. -/
def imm (env : Nat → Option Nat) (encE : RtyExpr → FExpr Nat)
    (arg : RtyExpr) (sort : RSort) (st : KvCtxt) (bs : List Binding) :
    Option (Nat × KvCtxt × List Binding) :=
  match arg with
  | .var name =>
      match env name with
      | some v => some (v, st, bs)
      | none => none
  | .boundVar _ _ => none
  | _ => do
      let fsort ← sort_to_fixpoint sort
      let fresh := st.nextLocal
      some (fresh, { st with nextLocal := fresh + 1 },
        bs ++ [(fresh, fsort, FExpr.eqE (.var fresh) (encE arg))])

/-- `iter::zip(&kvar.args, &decl.sorts).map(|(arg, sort)| imm(..))`
threading the context state and bindings left to right. -/
def immList (env : Nat → Option Nat) (encE : RtyExpr → FExpr Nat) :
    List (RtyExpr × RSort) → KvCtxt → List Binding →
    Option (List Nat × KvCtxt × List Binding)
  | [], st, bs => some ([], st, bs)
  | (a, s) :: rest, st, bs => do
      let (v, st', bs') ← imm env encE a s st bs
      let (vs, st'', bs'') ← immList env encE rest st' bs'
      some (v :: vs, st'', bs'')

/-- `FixpointCtxt::kvar_to_fixpoint` from `fixpoint_encoding.rs`: populate
the kvid map, encode all arguments with `imm`, then either (no arguments)
apply the single sub-kvar to a fresh unit-sorted local, or build the
conjunction in which the `i`-th entry of the kvid list is applied to
`all_args.skip(kvids.len() - i - 1)`. -/
def kvar_to_fixpoint (decls : Nat → KVarDecl) (env : Nat → Option Nat)
    (encE : RtyExpr → FExpr Nat) (kv : RtyKVar) (st : KvCtxt)
    (bs : List Binding) :
    Option (FPred Nat Nat × KvCtxt × List Binding) := do
  let st₁ ← populate_kvid_map (decls kv.kvid) kv.kvid st
  let decl := decls kv.kvid
  let (allArgs, st₂, bs₂) ← immList env encE (kv.args.zip decl.sorts) st₁ bs
  let kvids ← lookupKvid st₂.kvidMap kv.kvid
  if allArgs.isEmpty then
    let fresh := st₂.nextLocal
    let bs₃ := bs₂ ++ [(fresh, FSort.unit, FExpr.eqE (.var fresh) .unit)]
    match kvids with
    | [] => none
    | k :: _ => some (.kvar k [fresh], { st₂ with nextLocal := fresh + 1 }, bs₃)
  else
    some (.and (kvids.enum.map
      (fun p => FPred.kvar p.2 (allArgs.drop (kvids.length - p.1 - 1)))),
      st₂, bs₂)

theorem sortsToFixpoint_length {l : List RSort} {fl : List FSort}
    (h : sortsToFixpoint l = some fl) : fl.length = l.length := by
  induction l generalizing fl with
  | nil => simp [sortsToFixpoint] at h; simp [← h]
  | cons s rest ih =>
    rw [sortsToFixpoint] at h
    cases hs : sort_to_fixpoint s with
    | none => rw [hs] at h; simp at h
    | some f =>
      rw [hs] at h
      cases hr : sortsToFixpoint rest with
      | none => rw [hr] at h; simp at h
      | some fr =>
        rw [hr] at h
        simp at h
        simp [← h, ih hr]

theorem immList_preserves {env : Nat → Option Nat} {encE : RtyExpr → FExpr Nat}
    {xs : List (RtyExpr × RSort)} {st st' : KvCtxt} {bs bs' : List Binding}
    {vs : List Nat} (h : immList env encE xs st bs = some (vs, st', bs')) :
    st'.kvidMap = st.kvidMap ∧ st'.fixpointKVars = st.fixpointKVars ∧
      vs.length = xs.length := by
  induction xs generalizing st bs vs with
  | nil =>
    simp [immList] at h
    obtain ⟨h1, h2, h3⟩ := h
    simp [← h1, ← h2, ← h3]
  | cons p rest ih =>
    obtain ⟨a, s⟩ := p
    rw [immList] at h
    cases him : imm env encE a s st bs with
    | none => rw [him] at h; simp at h
    | some r =>
      obtain ⟨v, st₁, bs₁⟩ := r
      rw [him] at h
      simp only [Option.bind_eq_bind, Option.some_bind] at h
      cases hrest : immList env encE rest st₁ bs₁ with
      | none => rw [hrest] at h; simp at h
      | some r₂ =>
        obtain ⟨vs₂, st₂, bs₂⟩ := r₂
        rw [hrest] at h
        simp only [Option.some_bind, Option.some_inj, Prod.mk.injEq] at h
        obtain ⟨hv, hst, hbs⟩ := h
        subst hst
        subst hbs
        have hi := ih hrest
        have himm : st₁.kvidMap = st.kvidMap ∧ st₁.fixpointKVars = st.fixpointKVars := by
          cases a <;> simp only [imm] at him
          case var name =>
            cases henv : env name with
            | none => rw [henv] at him; simp at him
            | some v' =>
              rw [henv] at him
              simp at him
              simp [← him.2.1]
          case boundVar d i => simp at him
          all_goals {
            cases hsrt : sort_to_fixpoint s with
            | none => rw [hsrt] at him; simp at him
            | some f =>
              rw [hsrt] at him
              simp at him
              rw [← him.2.1]
              exact ⟨rfl, rfl⟩
          }
        refine ⟨?_, ?_, ?_⟩
        · rw [hi.1, himm.1]
        · rw [hi.2.1, himm.2]
        · rw [← hv]
          simp [hi.2.2]

/-- **C3.** Under `Conj` encoding, every high-level kvar
`$k(a₀,…,aₙ)[b₀,…]` — with at least one flattened self argument and
argument expressions matching its declared sorts — is lowered to a
conjunction of sub-kvars, one per flattened self argument, in which, for
every position `i` of the full flattened argument list (self args followed
by the captured scope), the sub-kvar for position `i` is applied to the
tail of the argument list from position `i` inclusive and is declared over
exactly the sorts of that tail.  (In the generated list the conjunct for
position `i` sits at index `n−1−i`; the conjunction itself is
order-insensitive.) -/
theorem kvar_conj_encoding
    (decls : Nat → KVarDecl) (env : Nat → Option Nat)
    (encE : RtyExpr → FExpr Nat) (kv : RtyKVar) (st₀ : KvCtxt)
    (bs₀ : List Binding) (pred : FPred Nat Nat) (st' : KvCtxt)
    (bs' : List Binding)
    (henc : (decls kv.kvid).encoding = .conj)
    (hself : 1 ≤ (decls kv.kvid).self_args)
    (hlen : kv.args.length = (decls kv.kvid).sorts.length)
    (hargs : kv.args ≠ [])
    (hfresh : lookupKvid st₀.kvidMap kv.kvid = none)
    (hrun : kvar_to_fixpoint decls env encE kv st₀ bs₀ = some (pred, st', bs')) :
    ∃ (allArgs : List Nat) (fsorts : List FSort)
      (conj : List (FPred Nat Nat)),
      sortsToFixpoint (decls kv.kvid).sorts = some fsorts ∧
      allArgs.length = kv.args.length ∧
      pred = .and conj ∧
      conj.length = (decls kv.kvid).self_args ∧
      ∀ i, i < (decls kv.kvid).self_args →
        conj[(decls kv.kvid).self_args - 1 - i]? =
          some (.kvar (st₀.fixpointKVars.length +
            ((decls kv.kvid).self_args - 1 - i)) (allArgs.drop i)) ∧
        st'.fixpointKVars[st₀.fixpointKVars.length +
            ((decls kv.kvid).self_args - 1 - i)]? =
          some ⟨fsorts.drop i, kv.kvid⟩ := by
  simp only [kvar_to_fixpoint, Option.bind_eq_bind] at hrun
  rw [populate_kvid_map, hfresh] at hrun
  set n := (decls kv.kvid).self_args with hn
  cases hsf : sortsToFixpoint (decls kv.kvid).sorts with
  | none => rw [hsf] at hrun; simp at hrun
  | some fsorts =>
    rw [hsf] at hrun
    have hfslen : fsorts.length = (decls kv.kvid).sorts.length :=
      sortsToFixpoint_length hsf
    have hsne : (decls kv.kvid).sorts ≠ [] := by
      intro h0
      rw [h0] at hlen
      simp at hlen
      exact hargs hlen
    have hfne : fsorts.isEmpty = false := by
      cases fsorts with
      | nil =>
        exfalso
        apply hsne
        apply List.length_eq_zero.mp
        rw [← hfslen]
        rfl
      | cons a l => rfl
    rw [henc] at hrun
    have hmax : max n 1 = n := Nat.max_eq_left hself
    simp only [Option.bind_eq_bind, Option.some_bind, hfne, Bool.false_eq_true,
      if_false, hmax] at hrun
    set st₁ : KvCtxt :=
      { kvidMap := (kv.kvid, (List.range n).map (st₀.fixpointKVars.length + ·))
          :: st₀.kvidMap
        fixpointKVars := st₀.fixpointKVars ++
          (List.range n).map (fun i => ⟨fsorts.drop (n - i - 1), kv.kvid⟩)
        nextLocal := st₀.nextLocal } with hst₁
    cases him : immList env encE (kv.args.zip (decls kv.kvid).sorts) st₁ bs₀ with
    | none => rw [him] at hrun; simp at hrun
    | some r =>
      obtain ⟨allArgs, st₂, bs₂⟩ := r
      rw [him] at hrun
      simp only [Option.some_bind] at hrun
      have hpres := immList_preserves him
      have hzlen : (kv.args.zip (decls kv.kvid).sorts).length = kv.args.length := by
        rw [List.length_zip, hlen, Nat.min_self]
      have halen : allArgs.length = kv.args.length := by
        rw [hpres.2.2, hzlen]
      have hlook : lookupKvid st₂.kvidMap kv.kvid =
          some ((List.range n).map (st₀.fixpointKVars.length + ·)) := by
        rw [hpres.1, hst₁]
        simp [lookupKvid]
      rw [hlook] at hrun
      have hane : allArgs.isEmpty = false := by
        cases allArgs with
        | nil =>
          exfalso
          apply hargs
          apply List.length_eq_zero.mp
          rw [← halen]
          rfl
        | cons a l => rfl
      simp only [Option.some_bind, hane, Bool.false_eq_true, if_false,
        Option.some_inj, Prod.mk.injEq] at hrun
      obtain ⟨hpred, hst', hbs'⟩ := hrun
      refine ⟨allArgs, fsorts, _, rfl, halen, hpred.symm, ?_, ?_⟩
      · simp
      · intro i hi
        have hj : n - 1 - i < n := by omega
        have harith : n - (n - 1 - i) - 1 = i := by omega
        constructor
        · simp only [List.getElem?_map, List.getElem?_enum,
            List.getElem?_range hj, Option.map_some', List.length_map,
            List.length_range, harith]
        · rw [← hst', hpres.2.1, hst₁]
          simp only [List.getElem?_append_right (Nat.le_add_right _ _),
            Nat.add_sub_cancel_left, List.getElem?_map,
            List.getElem?_range hj, Option.map_some', harith]

/-- **C3 witness.** A concrete `Conj`-encoded kvar with two flattened self
arguments over sorts `(int, bool)` and free-variable arguments: it lowers
to `$k0(a₁) ∧ $k1(a₀, a₁)`, i.e. for each position `i ∈ {0, 1}` one
sub-kvar takes the tail from `i`, declared over the tail's sorts. -/
theorem kvar_conj_encoding_witness :
    ∃ (allArgs : List Nat) (fsorts : List FSort)
      (conj : List (FPred Nat Nat)),
      sortsToFixpoint [RSort.int, RSort.bool] = some fsorts ∧
      allArgs.length = 2 ∧
      FPred.and [.kvar 0 [111], .kvar 1 [110, 111]] = .and conj ∧
      conj.length = 2 ∧
      ∀ i, i < 2 →
        conj[2 - 1 - i]? = some (.kvar (0 + (2 - 1 - i)) (allArgs.drop i)) ∧
        ([(⟨[.bool], 0⟩ : FixpointKVar), ⟨[.int, .bool], 0⟩])[0 + (2 - 1 - i)]? =
          some ⟨fsorts.drop i, 0⟩ := by
  have h := kvar_conj_encoding
    (fun _ => ⟨2, [RSort.int, RSort.bool], .conj⟩)
    (fun v => some (v + 100))
    (fun _ => FExpr.unit)
    ⟨0, [.var 10, .var 11]⟩
    ⟨[], [], 0⟩ []
    (.and [.kvar 0 [111], .kvar 1 [110, 111]])
    ⟨[(0, [0, 1])], [⟨[.bool], 0⟩, ⟨[.int, .bool], 0⟩], 0⟩ []
    rfl (by simp) (by simp) (by simp) (by simp [lookupKvid])
    (by
      simp [kvar_to_fixpoint, populate_kvid_map, lookupKvid, sortsToFixpoint,
        sort_to_fixpoint, immList, imm, List.range_succ, List.enum])
  simpa using h

/-! ## Parameter gathering (`flux-desugar/src/desugar/gather.rs`)

`surface::BindKind`, `fhir::Sort` and `fhir::ParamKind` are declared
outside the provided sources; their constructors are taken from their uses
in `gather.rs`.  The scoped environment type `env::Env` (also outside the
sources) is modelled from the spec: an env is a sequence of entries
`(ident, param, used)`, `filter_map` visits entries in order, and the
fresh-name generator hands out consecutive internal names. -/

/-- `surface::BindKind`: `@` (`atB`) or `#` (`pound`). -/
inductive BindKind where
  | atB | pound
  deriving DecidableEq

/-- `TypePos` from `gather.rs`. -/
inductive TypePos where
  | input | output | field | generic | other
  deriving DecidableEq

/-- `TypePos::is_binder_allowed` from `gather.rs`: `Input` allows only `@`,
`Output` allows only `#`, and `Generic | Field | Other` allow none. -/
def TypePos.is_binder_allowed : TypePos → BindKind → Bool
  | .input, kind => kind == .atB
  | .output, kind => kind == .pound
  | .generic, _ => false
  | .field, _ => false
  | .other, _ => false

/-- `fhir::Sort` as used by gathering: `Wildcard`, `Loc`, or some resolved
sort (opaque id). -/
inductive FhirSort where
  | wildcard
  | loc
  | resolved (id : Nat)
  deriving DecidableEq

/-- The gathering-time `Param` from `gather.rs`. -/
inductive GParam where
  | explicit (s : FhirSort)
  | atP
  | pound
  | colon
  | syntaxError
  deriving DecidableEq

/-- `impl From<surface::BindKind> for Param` from `gather.rs`. -/
def paramOfBindKind : BindKind → GParam
  | .atB => .atP
  | .pound => .pound

/-- `fhir::ParamKind` as used by `Env::into_desugar_env`. -/
inductive FhirParamKind where
  | explicit | atK | poundK | colonK
  deriving DecidableEq

/-- The desugared `super::Param { name, sort, kind }`. -/
structure DParam where
  name : Nat
  sort : FhirSort
  kind : FhirParamKind
  deriving DecidableEq

/-- The per-entry `match` inside `Env::into_desugar_env`: sort and kind of
the retained entry, or `None` to drop it (`Colon` unused, `SyntaxError`). -/
def convertParam (param : GParam) (used : Bool) : Option (FhirSort × FhirParamKind) :=
  match param with
  | .explicit s => some (s, .explicit)
  | .atP => some (.wildcard, .atK)
  | .pound => some (.wildcard, .poundK)
  | .colon => if used then some (.wildcard, .colonK) else none
  | .syntaxError => none

/-- `Env::into_desugar_env` from `gather.rs`.  The traversal/fresh-name
skeleton is the missing `env::Env::filter_map` with an `IndexGen`; it is
modelled from the spec: entries are visited in order and each *retained*
entry gets the next fresh internal name (`name_gen.fresh()` is only called
when the closure returns `Some`). -/
def into_desugar_env (next : Nat) : List (GParam × Bool) → List DParam
  | [] => []
  | (p, used) :: rest =>
      match convertParam p used with
      | none => into_desugar_env next rest
      | some (s, k) => ⟨next, s, k⟩ :: into_desugar_env (next + 1) rest

/-- One gathering-env entry for use checking: identifier, param, used
flag. -/
abbrev UseEnv := List (Nat × GParam × Bool)

/-- `Scope::mark_as_used` (env.rs, modelled from the spec): set the used
flag of the innermost (first) entry for `ident`. -/
def markUsed : UseEnv → Nat → UseEnv
  | [], _ => []
  | e :: rest, ident =>
      if e.1 = ident then (e.1, e.2.1, true) :: rest else e :: markUsed rest ident

/-- `CheckParamUses::check_use` from `gather.rs`: look the name up in the
innermost enclosing scope chain; a `SyntaxError` binding records an
`InvalidUnrefinedParam` error, any other found binding is marked as used,
an absent name does nothing. -/
def check_use (env : UseEnv) (err : Option Unit) (ident : Nat) :
    UseEnv × Option Unit :=
  match env.find? (fun e => e.1 = ident) with
  | some (_, .syntaxError, _) => (env, some ())
  | some _ => (markUsed env ident, err)
  | none => (env, err)

theorem into_desugar_env_names (next : Nat) (entries : List (GParam × Bool)) :
    (into_desugar_env next entries).map DParam.name =
      List.range' next
        (entries.filterMap (fun pu => convertParam pu.1 pu.2)).length ∧
    (into_desugar_env next entries).map (fun d => (d.sort, d.kind)) =
      entries.filterMap (fun pu => convertParam pu.1 pu.2) := by
  induction entries generalizing next with
  | nil => simp [into_desugar_env]
  | cons pu rest ih =>
    obtain ⟨p, used⟩ := pu
    cases hc : convertParam p used with
    | none =>
      simp only [into_desugar_env, hc, List.filterMap_cons]
      exact ih next
    | some sk =>
      obtain ⟨s, k⟩ := sk
      simp only [into_desugar_env, hc, List.filterMap_cons, List.map_cons,
        List.length_cons, List.range'_succ]
      exact ⟨by rw [(ih (next + 1)).1], by rw [(ih (next + 1)).2]⟩

theorem into_desugar_env_colon_used (next : Nat) (entries : List (GParam × Bool)) :
    ∀ d ∈ into_desugar_env next entries, d.kind = .colonK →
      (GParam.colon, true) ∈ entries := by
  induction entries generalizing next with
  | nil => simp [into_desugar_env]
  | cons pu rest ih =>
    obtain ⟨p, used⟩ := pu
    intro d hd hk
    cases hc : convertParam p used with
    | none =>
      rw [into_desugar_env, hc] at hd
      exact List.mem_cons_of_mem _ (ih next d hd hk)
    | some sk =>
      obtain ⟨s, k⟩ := sk
      rw [into_desugar_env, hc] at hd
      rcases List.mem_cons.mp hd with rfl | hd'
      · refine List.mem_cons.mpr (Or.inl ?_)
        cases p with
        | explicit s' => simp [convertParam] at hc; simp [convertParam, ← hc.2] at hk
        | atP => simp [convertParam] at hc; simp [convertParam, ← hc.2] at hk
        | pound => simp [convertParam] at hc; simp [convertParam, ← hc.2] at hk
        | colon =>
          cases used with
          | true => rfl
          | false => simp [convertParam] at hc
        | syntaxError => simp [convertParam] at hc
      · exact List.mem_cons_of_mem _ (ih (next + 1) d hd' hk)

/-- **C6.** Finalization maps every `Explicit(s)` param to
`(s, Explicit)`, every `At` to `(Wildcard, At)`, every `Pound` to
`(Wildcard, Pound)`, keeps a `Colon` param (as `(Wildcard, Colon)`) iff it
was marked used by the use-checking pass (`check_use` marks every found
non-`SyntaxError` binding), always drops `SyntaxError` params, and gives
each retained entry a fresh (consecutive, hence pairwise distinct)
internal name; a `Colon` param never marked used is never present in the
final env. -/
theorem into_desugar_env_spec (entries : List (GParam × Bool)) :
    ((into_desugar_env 0 entries).map (fun d => (d.sort, d.kind)) =
      entries.filterMap (fun pu => convertParam pu.1 pu.2)) ∧
    ((into_desugar_env 0 entries).map DParam.name =
      List.range (entries.filterMap (fun pu => convertParam pu.1 pu.2)).length) ∧
    ((into_desugar_env 0 entries).map DParam.name).Nodup ∧
    (∀ s u, convertParam (.explicit s) u = some (s, .explicit)) ∧
    (∀ u, convertParam .atP u = some (.wildcard, .atK)) ∧
    (∀ u, convertParam .pound u = some (.wildcard, .poundK)) ∧
    convertParam .colon true = some (.wildcard, .colonK) ∧
    convertParam .colon false = none ∧
    (∀ u, convertParam .syntaxError u = none) ∧
    (∀ d ∈ into_desugar_env 0 entries, d.kind = .colonK →
      (GParam.colon, true) ∈ entries) ∧
    (∀ (env : UseEnv) (err : Option Unit) (ident : Nat) (p : GParam) (u : Bool),
      env.find? (fun e => e.1 = ident) = some (ident, p, u) →
      p ≠ .syntaxError →
      check_use env err ident = (markUsed env ident, err)) ∧
    (∀ (env : UseEnv) (err : Option Unit) (ident : Nat) (u : Bool),
      env.find? (fun e => e.1 = ident) = some (ident, .syntaxError, u) →
      check_use env err ident = (env, some ())) := by
  refine ⟨(into_desugar_env_names 0 entries).2, ?_, ?_, ?_, ?_, ?_, rfl, rfl, ?_,
    into_desugar_env_colon_used 0 entries, ?_, ?_⟩
  · rw [(into_desugar_env_names 0 entries).1, List.range_eq_range']
  · rw [(into_desugar_env_names 0 entries).1]
    exact List.nodup_range' 0 _
  · intro s u; rfl
  · intro u; rfl
  · intro u; rfl
  · intro u; rfl
  · intro env err ident p u hfind hne
    rw [check_use, hfind]
    cases p with
    | syntaxError => exact absurd rfl hne
    | explicit s => rfl
    | atP => rfl
    | pound => rfl
    | colon => rfl
  · intro env err ident u hfind
    rw [check_use, hfind]

/-- **C6 witness.** Finalizing `[(Colon, used), (Colon, unused),
(SyntaxError, _)]` keeps only the used `Colon`; `check_use` marks a found
`Colon` binding used and flags a `SyntaxError` binding. -/
theorem into_desugar_env_spec_witness :
    (GParam.colon, true) ∈
      [(GParam.colon, true), (GParam.colon, false), (GParam.syntaxError, false)] ∧
    check_use [(5, GParam.colon, false)] none 5 =
      (markUsed [(5, GParam.colon, false)] 5, none) ∧
    check_use [(7, GParam.syntaxError, false)] none 7 =
      ([(7, GParam.syntaxError, false)], some ()) :=
  ⟨(into_desugar_env_spec
      [(.colon, true), (.colon, false), (.syntaxError, false)]).2.2.2.2.2.2.2.2.2.1
      ⟨0, .wildcard, .colonK⟩ (by decide) rfl,
   (into_desugar_env_spec []).2.2.2.2.2.2.2.2.2.2.1
      [(5, .colon, false)] none 5 .colon false (by decide) (by decide),
   (into_desugar_env_spec []).2.2.2.2.2.2.2.2.2.2.2
      [(7, .syntaxError, false)] none 7 false (by decide)⟩

/-! ### Binder positions (C5) -/

/-- Gathering errors relevant here: an illegal implicit binder, or a
failed sort resolution. -/
inductive GatherErr where
  | illegalBinder (kind : BindKind)
  | sortResolution
  deriving DecidableEq

/-- Environment-mutating events recorded by gathering (inserts and scope
push/exit on the scoped env, whose implementation lives in env.rs). -/
inductive EnvEvent where
  | insert (ident : Nat) (param : GParam)
  | push (scope : Nat)
  | exitScope
  deriving DecidableEq

/-- `surface::RefineArg`, as matched by `gather_params_refine_arg`: a
binder `@x`/`#x`, an abstraction with declared params (name, unresolved
sort id), or an expression. -/
inductive SRefineArg where
  | bind (ident : Nat) (kind : BindKind)
  | abs (params : List (Nat × Nat)) (nodeId : Nat)
  | expr
  deriving DecidableEq

/-- `RustItemCtxt::resolve_params` from `gather.rs`, with the external
sort resolver abstracted: each declared param becomes `Explicit(sort)`. -/
def resolve_params (resolver : Nat → Option FhirSort) (params : List (Nat × Nat)) :
    Option (List (Nat × GParam)) :=
  params.mapM (fun p => (resolver p.2).map (fun s => (p.1, GParam.explicit s)))

/-- `RustItemCtxt::gather_params_refine_arg` from `gather.rs`: a `Bind` is
rejected with `IllegalBinder` unless `pos.is_binder_allowed(kind)`, and
otherwise inserted with its `@`/`#` param kind; an `Abs` pushes an `Abs`
scope, inserts its resolved params and exits; an `Expr` does nothing. -/
def gather_params_refine_arg (resolver : Nat → Option FhirSort)
    (arg : SRefineArg) (pos : TypePos) : Except GatherErr (List EnvEvent) :=
  match arg with
  | .bind ident kind =>
      if !pos.is_binder_allowed kind then
        .error (.illegalBinder kind)
      else
        .ok [.insert ident (paramOfBindKind kind)]
  | .abs params nodeId =>
      match resolve_params resolver params with
      | none => .error .sortResolution
      | some resolved =>
          .ok ([.push nodeId] ++ resolved.map (fun p => .insert p.1 p.2)
            ++ [.exitScope])
  | .expr => .ok []

/-- `surface::Path` as consumed by `gather_params_path`: whether it is a
type hole, its refinement args, its generic args (opaque ids handled by
the recursive traversal), and whether its resolved head is `Box`
(`genv.is_box(res)`). -/
structure SPath where
  isHole : Bool
  refine : List SRefineArg
  generics : List Nat
  isBox : Bool

/-- The `for arg in &path.refine` loop of `gather_params_path`: the kind
of the first `Bind` refinement arg, if any (the loop returns an
`IllegalBinder` error on the first such arg). -/
def findBindKind : List SRefineArg → Option BindKind
  | [] => none
  | .bind _ kind :: _ => some kind
  | _ :: rest => findBindKind rest

/-- The `try_for_each_exhaust` over `path.generics`, with the recursive
call `gather_params_generic_arg` abstracted as `recur` (error
accumulation collapsed to the first error). -/
def gather_generics (recur : TypePos → Nat → Except GatherErr (List EnvEvent))
    (pos : TypePos) : List Nat → Except GatherErr (List EnvEvent)
  | [] => .ok []
  | g :: rest => do
      let evs ← recur pos g
      let evs' ← gather_generics recur pos rest
      pure (evs ++ evs')

/-- `RustItemCtxt::gather_params_path` from `gather.rs`: holes gather
nothing; a `Bind` refinement arg on the path is a hard `IllegalBinder`
error; generic args are gathered at the current position if the resolved
head is `Box` and at `Generic` otherwise. -/
def gather_params_path (recur : TypePos → Nat → Except GatherErr (List EnvEvent))
    (path : SPath) (pos : TypePos) : Except GatherErr (List EnvEvent) :=
  if path.isHole then .ok []
  else
    match findBindKind path.refine with
    | some kind => .error (.illegalBinder kind)
    | none =>
        let pos' := if path.isBox then pos else .generic
        gather_generics recur pos' path.generics

/-- **C5.** An implicit binder is accepted only if the enclosing position
permits it — an `@`-binder only in `Input`, a `#`-binder only in `Output`,
and neither in `Field`, `Generic` or `Other` — and is otherwise rejected
with an `IllegalBinder` error; moreover `gather_params_path` hard-errors
on a binder among the path's own refinement args, and recurses into the
generic args of a path at position `Generic` unless the path's resolved
head is `Box`, in which case the current position is preserved (the
recursive traversal is invoked only at that downgraded position). -/
theorem binder_position_rules :
    (∀ (pos : TypePos) (kind : BindKind),
      pos.is_binder_allowed kind = true ↔
        (kind = .atB ∧ pos = .input) ∨ (kind = .pound ∧ pos = .output)) ∧
    (∀ (resolver : Nat → Option FhirSort) (pos : TypePos) (ident : Nat)
        (kind : BindKind),
      gather_params_refine_arg resolver (.bind ident kind) pos =
        if pos.is_binder_allowed kind then
          .ok [.insert ident (paramOfBindKind kind)]
        else .error (.illegalBinder kind)) ∧
    (∀ (recur : TypePos → Nat → Except GatherErr (List EnvEvent))
        (path : SPath) (pos : TypePos) (kind : BindKind),
      path.isHole = false →
      findBindKind path.refine = some kind →
      gather_params_path recur path pos = .error (.illegalBinder kind)) ∧
    (∀ (path : SPath) (pos : TypePos)
        (r₁ r₂ : TypePos → Nat → Except GatherErr (List EnvEvent)),
      (∀ g, r₁ (if path.isBox then pos else .generic) g =
            r₂ (if path.isBox then pos else .generic) g) →
      gather_params_path r₁ path pos = gather_params_path r₂ path pos) := by
  refine ⟨?_, ?_, ?_, ?_⟩
  · intro pos kind
    cases pos <;> cases kind <;> simp [TypePos.is_binder_allowed]
  · intro resolver pos ident kind
    rw [gather_params_refine_arg]
    cases h : pos.is_binder_allowed kind <;> simp [h]
  · intro recur path pos kind hhole hfind
    rw [gather_params_path, hhole, hfind]
    simp
  · intro path pos r₁ r₂ hr
    rw [gather_params_path, gather_params_path]
    cases path.isHole with
    | true => rfl
    | false =>
      simp only [Bool.false_eq_true, if_false]
      cases findBindKind path.refine with
      | some kind => rfl
      | none =>
        simp only
        induction path.generics with
        | nil => rfl
        | cons g rest ih =>
          rw [gather_generics, gather_generics, hr g, ih]

/-- **C5 witness.** The binder rules at concrete inputs: `@x` accepted in
`Input`, rejected in `Generic`; a `#y` among a path's refinement args is a
hard error; and a non-`Box` path invokes the recursion at `Generic`, so
two traversals agreeing at `Generic` agree on the path. -/
theorem binder_position_rules_witness :
    (TypePos.input.is_binder_allowed .atB = true ↔
      ((BindKind.atB = .atB ∧ TypePos.input = .input) ∨
       (BindKind.atB = .pound ∧ TypePos.input = .output))) ∧
    gather_params_refine_arg (fun _ => none) (.bind 3 .atB) .generic =
      (if TypePos.generic.is_binder_allowed .atB then
        .ok [.insert 3 (paramOfBindKind .atB)]
      else .error (.illegalBinder .atB)) ∧
    gather_params_path (fun _ _ => .ok [])
      ⟨false, [.expr, .bind 4 .pound], [0], true⟩ .input =
      .error (.illegalBinder .pound) ∧
    gather_params_path (fun p g => if p = .generic then .ok [] else .ok [.push g])
      ⟨false, [], [0, 1], false⟩ .input =
      gather_params_path (fun _ _ => .ok []) ⟨false, [], [0, 1], false⟩ .input :=
  ⟨binder_position_rules.1 .input .atB,
   binder_position_rules.2.1 (fun _ => none) .generic 3 .atB,
   binder_position_rules.2.2.1 (fun _ _ => .ok [])
     ⟨false, [.expr, .bind 4 .pound], [0], true⟩ .input .pound rfl rfl,
   binder_position_rules.2.2.2 ⟨false, [], [0, 1], false⟩ .input
     (fun p g => if p = .generic then .ok [] else .ok [.push g])
     (fun _ _ => .ok []) (fun g => by simp)⟩

/-! ## The refine-mode work-queue loop (`checker.rs`)

`Checker::run` pops basic blocks from a `WorkQueue` (crate `queue`,
outside the provided sources).  Modelled from the spec: the queue is a
priority set ordered by dominator-tree rank — inserting a pending block
does not duplicate it and `pop` removes the block — so it is embedded as a
`Finset` of pending blocks (which block is popped is left
nondeterministic, which only strengthens the theorem).

One loop iteration pops `b`; if `b` is already visited the code calls
`refine_tree.clear_children` and `M::clear`, and `RefineMode::clear` is
`bug!()` — an unconditional panic (the `clearPanic` rule).  Otherwise
`check_basic_block(b)` first marks `b` visited, then checks statements and
terminator and walks successors via `check_goto`: non-join targets are
checked recursively (marking only non-join blocks visited, the set `N`),
exit blocks check the return, and join targets go through
`RefineMode::check_goto_join_point`, which emits the subtyping constraint
and returns `!visited.contains(target)`, so a join `J` is inserted into
the queue only when unvisited at insertion time; since the blocks that
become visited during the iteration are `b` and non-joins, and `b` is
visited from the start of `check_basic_block`, every inserted join is
still unvisited when the iteration ends (the `process` rule).  Errors
abort the loop early, which needs no extra rule. -/

/-- The loop state of `Checker::run` in refine mode: the `visited` bitset,
the pending work queue, and whether the unreachable `RefineMode::clear`
panic was hit. -/
structure RunState where
  visited : Finset Nat
  queue : Finset Nat
  panicked : Bool

/-- One iteration of the refine-mode work-queue loop, parameterized by the
join-point predicate of the CFG (`body.is_join_point`). -/
inductive RefineStep (isJoin : Nat → Bool) : RunState → RunState → Prop where
  /-- Pop an unvisited block `b` and check it: `b` and a set `N` of
  non-join blocks become visited, and a set `J` of join points — each
  unvisited even at the end of the iteration — is inserted. -/
  | process (s : RunState) (b : Nat) (N J : Finset Nat)
      (hb : b ∈ s.queue) (hnv : b ∉ s.visited)
      (hN : ∀ x ∈ N, isJoin x = false)
      (hJ : ∀ x ∈ J, isJoin x = true ∧ x ∉ s.visited ∪ {b} ∪ N) :
      RefineStep isJoin s
        ⟨s.visited ∪ {b} ∪ N, s.queue.erase b ∪ J, s.panicked⟩
  /-- Pop an already-visited block: `RefineMode::clear` is `bug!()`. -/
  | clearPanic (s : RunState) (b : Nat)
      (hb : b ∈ s.queue) (hv : b ∈ s.visited) :
      RefineStep isJoin s ⟨s.visited, s.queue.erase b, true⟩

/-- The state right after the initial `check_goto(.., START_BLOCK)`:
nothing has panicked, only non-join blocks have been visited (via the
recursive `check_basic_block` cascade), and the queue holds unvisited join
points. -/
def RefineInit (isJoin : Nat → Bool) (s : RunState) : Prop :=
  s.panicked = false ∧ (∀ x ∈ s.visited, isJoin x = false) ∧
    (∀ x ∈ s.queue, isJoin x = true ∧ x ∉ s.visited)

/-- Loop invariant: no panic, the queue holds only join points, and no
queued block is visited. -/
def RefineInv (isJoin : Nat → Bool) (s : RunState) : Prop :=
  s.panicked = false ∧ (∀ x ∈ s.queue, isJoin x = true) ∧
    (∀ x ∈ s.queue, x ∉ s.visited)

theorem refineInv_init {isJoin : Nat → Bool} {s : RunState}
    (h : RefineInit isJoin s) : RefineInv isJoin s :=
  ⟨h.1, fun x hx => (h.2.2 x hx).1, fun x hx => (h.2.2 x hx).2⟩

theorem refineInv_step {isJoin : Nat → Bool} {s s' : RunState}
    (hinv : RefineInv isJoin s) (hstep : RefineStep isJoin s s') :
    RefineInv isJoin s' := by
  cases hstep with
  | process b N J hb hnv hN hJ =>
    refine ⟨hinv.1, ?_, ?_⟩
    · intro x hx
      rcases Finset.mem_union.mp hx with hx | hx
      · exact hinv.2.1 x (Finset.mem_of_mem_erase hx)
      · exact (hJ x hx).1
    · intro x hx
      rcases Finset.mem_union.mp hx with hx | hx
      · have hxq := Finset.mem_of_mem_erase hx
        have hxb := Finset.ne_of_mem_erase hx
        have hxv := hinv.2.2 x hxq
        have hxj := hinv.2.1 x hxq
        intro hmem
        rcases Finset.mem_union.mp hmem with hmem | hmem
        · rcases Finset.mem_union.mp hmem with hmem | hmem
          · exact hxv hmem
          · exact hxb (Finset.mem_singleton.mp hmem)
        · rw [hN x hmem] at hxj
          exact Bool.false_ne_true hxj
      · exact (hJ x hx).2
  | clearPanic b hb hv =>
    exact absurd hv (hinv.2.2 b hb)

/-- **C10.** In refine mode every basic block is checked at most once:
from any valid initial state, every reachable loop state satisfies the
invariant that no queued block is visited (so `process` requires and pops
only unvisited blocks, which it then marks visited — and `visited` only
grows (monotonicity conjunct), so no block is ever processed twice); the
loop never panics, and any further step from a reachable state keeps
`panicked = false`, i.e. the branch invoking the unreachable
`RefineMode::clear` is never taken. -/
theorem refine_mode_checks_each_block_once
    (isJoin : Nat → Bool) (s₀ s : RunState)
    (hinit : RefineInit isJoin s₀)
    (hreach : Relation.ReflTransGen (RefineStep isJoin) s₀ s) :
    (s.panicked = false ∧ ∀ b ∈ s.queue, b ∉ s.visited) ∧
    (∀ s', RefineStep isJoin s s' → s'.panicked = false) ∧
    (∀ t t' : RunState, RefineStep isJoin t t' → t.visited ⊆ t'.visited) := by
  have hinv : RefineInv isJoin s := by
    induction hreach with
    | refl => exact refineInv_init hinit
    | tail hr hstep ih => exact refineInv_step ih hstep
  refine ⟨⟨hinv.1, hinv.2.2⟩, ?_, ?_⟩
  · intro s' hstep
    cases hstep with
    | process b N J hb hnv hN hJ => exact hinv.1
    | clearPanic b hb hv => exact absurd hv (hinv.2.2 b hb)
  · intro t t' hstep
    cases hstep with
    | process b N J hb hnv hN hJ =>
      intro x hx
      exact Finset.mem_union_left _ (Finset.mem_union_left _ hx)
    | clearPanic b hb hv => exact fun x hx => hx

/-- **C10 witness.** The theorem at a concrete two-block CFG state: block
`1` is a join point pending in the queue, block `0` is visited; the
reachable (initial) state pops only unvisited blocks and cannot panic. -/
theorem refine_mode_checks_each_block_once_witness :
    (({0} : Finset Nat) ≠ {1} → True) ∧
    ((⟨{0}, {1}, false⟩ : RunState).panicked = false ∧
      ∀ b ∈ (⟨{0}, {1}, false⟩ : RunState).queue,
        b ∉ (⟨{0}, {1}, false⟩ : RunState).visited) := by
  have h := refine_mode_checks_each_block_once (fun n => n == 1)
    ⟨{0}, {1}, false⟩ ⟨{0}, {1}, false⟩
    ⟨rfl, by decide, by decide⟩ Relation.ReflTransGen.refl
  exact ⟨fun _ => trivial, h.1⟩
